import Mathlib

/-!
Verification of the `readeof` library (src/index.ts): a reverse, bounded-memory
scan that returns the last N newline-delimited lines of a file, and a polling
tail-follow mode.  File contents are modelled as lists of bytes (`List Nat`);
text decoding is modelled as the identity on bytes (the line-feed byte 10 never
occurs inside a multi-byte UTF-8 sequence, so splitting decoded text on the
newline character coincides with splitting the bytes on byte 10).
-/

namespace Readeof

/-- The line-feed byte (ASCII 10). -/
def NL : Nat := 10

/-- Backward scan of the byte range `[pos, pos + n)` of the file `C` (of size `fs`),
counting line feeds: the inner `for` loop of `readeofOnce`.  A chunk of `n` bytes
read at offset `pos` is scanned from its highest index down; `C.getD (pos + i) 0`
models `buffer[i]` for that chunk.  On a line-feed byte at absolute offset
`pos + i`, `linesFound` is incremented unless that offset is `fs - 1` and
`linesFound` is still zero; when `linesFound` reaches `k` the loop breaks,
recording `startReadPos = pos + i + 1`.  Returns the final `linesFound` together
with `some startReadPos` when the break fired, `none` otherwise. -/
def scanRange (C : List Nat) (fs k pos : Nat) : Nat → Nat → Nat × Option Nat
  | 0, lf => (lf, none)
  | n + 1, lf =>
    if C.getD (pos + n) 0 = NL then
      let lf' := if pos + n ≠ fs - 1 ∨ 0 < lf then lf + 1 else lf
      if k ≤ lf' then (lf', some (pos + n + 1))
      else scanRange C fs k pos n lf'
    else scanRange C fs k pos n lf

/-- The outer `while (position > 0 && linesFound < maxLines)` loop of
`readeofOnce`: repeated backward reads of `min bufferSize position` bytes, each
chunk scanned by `scanRange`.  `fuel` bounds the number of iterations (the real
loop decreases `position` by at least one per iteration whenever
`bufferSize ≥ 1`, so `fs + 2` fuel is never exhausted).  Carries
`(position, linesFound, startReadPos)` and returns the final
`(linesFound, startReadPos)` at loop exit. -/
def scanLoop (C : List Nat) (fs k bufferSize : Nat) :
    Nat → Nat → Nat → Nat → Nat × Nat
  | 0, _, lf, srp => (lf, srp)
  | fuel + 1, position, lf, srp =>
    if position = 0 ∨ k ≤ lf then (lf, srp)
    else
      let readLength := min bufferSize position
      let position' := position - readLength
      match scanRange C fs k position' readLength lf with
      | (lf', some s) => scanLoop C fs k bufferSize fuel position' lf' s
      | (lf', none) => scanLoop C fs k bufferSize fuel position' lf' srp

/-- The start offset computed by `readeofOnce`: `startReadPos` starts at
`stat.size`, the scan loop runs from `position = stat.size` with
`linesFound = 0`, and after the loop `startReadPos` is overwritten with `0`
when `linesFound < maxLines`. -/
def startOffset (C : List Nat) (k bufferSize : Nat) : Nat :=
  let fs := C.length
  let r := scanLoop C fs k bufferSize (fs + 2) fs 0 fs
  if r.1 < k then 0 else r.2

/-- The text returned by `readeofOnce`'s final read: `lengthToRead =
stat.size - startReadPos` bytes read at offset `startReadPos`. -/
def onceText (C : List Nat) (k bufferSize : Nat) : List Nat :=
  (C.drop (startOffset C k bufferSize)).take (C.length - startOffset C k bufferSize)

/-- Classified errors raised when opening or accessing a file. -/
inductive FsError where
  | notFound
  | permissionDenied
  | isADirectory
  | ioError
deriving DecidableEq, Repr

/-- Model of `readeofOnce(filePath, maxLines, encoding, bufferSize)`.  The
filesystem is modelled by `file`: the outcome of `open` + `stat` + reads, i.e.
either a classified open error for the path or the file's byte content.
Mirrors the order of the source's checks: `maxLines <= 0` returns `''` before
`open` is ever attempted; after a successful open, `stat.size == 0` returns
`''`; otherwise the backward scan + final read produce the result. -/
def readeofOnce (file : Except FsError (List Nat)) (maxLines : Int)
    (bufferSize : Nat) : Except FsError (List Nat) :=
  if maxLines ≤ 0 then .ok []
  else
    match file with
    | .error e => .error e
    | .ok C =>
      if C.length = 0 then .ok []
      else .ok (onceText C maxLines.toNat bufferSize)

/-- JS `content.split('\n')` on byte lists: splits on the line-feed byte.
Always returns at least one (possibly empty) segment. -/
def splitNL : List Nat → List (List Nat)
  | [] => [[]]
  | b :: rest =>
    if b = NL then [] :: splitNL rest
    else
      match splitNL rest with
      | [] => [[b]]
      | s :: ss => (b :: s) :: ss

/-- Joins segments with a line-feed byte between consecutive segments
(the inverse of `splitNL`). -/
def joinNL : List (List Nat) → List Nat
  | [] => []
  | [s] => s
  | s :: ss => s ++ NL :: joinNL ss

/-- The content of `C` before its trailing newline, if any: the part of the
file whose line feeds delimit segments. -/
def bodyOf (C : List Nat) : List Nat :=
  if C.getLast? = some NL then C.dropLast else C

/-- Modelled from the spec: the textual last `k` newline-delimited segments of
a file's content `C`, "preserving a trailing newline".  A trailing newline
delimits no extra segment: the content before it is split on line feeds, the
last `k` segments are kept and re-joined, and the trailing newline is
re-appended. -/
def lastSegments (C : List Nat) (k : Nat) : List Nat :=
  let segs := splitNL (bodyOf C)
  joinNL (segs.drop (segs.length - k)) ++
    if C.getLast? = some NL then [NL] else []

/-- The spec's "total line count" of a file: the number of newline-delimited
segments, a trailing newline delimiting no extra segment. -/
def totalLines (C : List Nat) : Nat :=
  (splitNL (bodyOf C)).length

/-- Number of line-feed bytes of `C` among indices below `n`. -/
def nlBelow (C : List Nat) : Nat → Nat
  | 0 => 0
  | n + 1 => nlBelow C n + if C.getD n 0 = NL then 1 else 0

/-- Position of the `(j+1)`-th line-feed byte of `C` from the end, among
indices below `n` (scanning from index `n - 1` downwards). -/
def nthNL (C : List Nat) : Nat → Nat → Option Nat
  | 0, _ => none
  | n + 1, j =>
    if C.getD n 0 = NL then
      if j = 0 then some n else nthNL C n (j - 1)
    else nthNL C n j

/-! ### Streaming mode (readeofStream) -/

/-- The backward chunk scan of `readeofStream`'s initial read.  The source
duplicates the one-shot inner `for` loop verbatim (same trailing-newline rule,
same break), so this definition mirrors `scanRange`. -/
def scanRangeS (C : List Nat) (fs k pos : Nat) : Nat → Nat → Nat × Option Nat
  | 0, lf => (lf, none)
  | n + 1, lf =>
    if C.getD (pos + n) 0 = NL then
      let lf' := if pos + n ≠ fs - 1 ∨ 0 < lf then lf + 1 else lf
      if k ≤ lf' then (lf', some (pos + n + 1))
      else scanRangeS C fs k pos n lf'
    else scanRangeS C fs k pos n lf

/-- The outer `while (searchPosition > 0 && linesFound < maxLines)` loop of
`readeofStream`'s initial read: the source duplicates the one-shot scan loop
verbatim, so this definition mirrors `scanLoop`. -/
def scanLoopS (C : List Nat) (fs k bufferSize : Nat) :
    Nat → Nat → Nat → Nat → Nat × Nat
  | 0, _, lf, srp => (lf, srp)
  | fuel + 1, position, lf, srp =>
    if position = 0 ∨ k ≤ lf then (lf, srp)
    else
      let readLength := min bufferSize position
      let position' := position - readLength
      match scanRangeS C fs k position' readLength lf with
      | (lf', some s) => scanLoopS C fs k bufferSize fuel position' lf' s
      | (lf', none) => scanLoopS C fs k bufferSize fuel position' lf' srp

/-- The start offset computed by `readeofStream`'s initial read (duplicated
from the one-shot path in the source). -/
def startOffsetS (C : List Nat) (k bufferSize : Nat) : Nat :=
  let fs := C.length
  let r := scanLoopS C fs k bufferSize (fs + 2) fs 0 fs
  if r.1 < k then 0 else r.2

/-- The lines yielded by `readeofStream` before it enters the watch loop: when
the file is non-empty and `maxLines > 0`, the initial content (the byte range
`[startReadPos, stat.size)`) is split on line feeds and each non-empty segment
is yielded individually, in order. -/
def initialEmits (C : List Nat) (maxLines : Int) (bufferSize : Nat) :
    List (List Nat) :=
  if 0 < C.length ∧ 0 < maxLines then
    let startReadPos := startOffsetS C maxLines.toNat bufferSize
    let content := (C.drop startReadPos).take (C.length - startReadPos)
    (splitNL content).filter (fun line => 0 < line.length)
  else []

/-- State carried between polls of the watch loop: the current read position
and the trailing not-yet-newline-terminated fragment of decoded text. -/
structure StreamState where
  position : Nat
  remainder : List Nat
deriving DecidableEq, Repr

/-- Truncation/rotation handling at the start of a watch cycle: if the current
size is smaller than the remembered position, reset to position `0` with an
empty remainder; otherwise keep the state. -/
def truncCheck (size : Nat) (s : StreamState) : StreamState :=
  if size < s.position then ⟨0, []⟩ else s

/-- One successful watch cycle of `readeofStream` observing file content `C`:
the truncation check, then — if the file is larger than the position — one
read of `min bufferSize (size - position)` bytes at the position.  If any
bytes were read, the position advances by that many bytes, the decoded chunk
is appended to the remainder, the result is split on line feeds, the last
segment becomes the new remainder, and every other non-empty segment is
emitted in order.  The second component lists the emitted lines; the third is
the read request `(offset, length)` issued, if any. -/
def pollStep (C : List Nat) (bufferSize : Nat) (s : StreamState) :
    StreamState × List (List Nat) × Option (Nat × Nat) :=
  let s0 := truncCheck C.length s
  if s0.position < C.length then
    let bytesToRead := min bufferSize (C.length - s0.position)
    let chunk := (C.drop s0.position).take bytesToRead
    if 0 < chunk.length then
      let lines := splitNL (s0.remainder ++ chunk)
      ( ⟨s0.position + chunk.length, (lines.getLast?).getD []⟩,
        lines.dropLast.filter (fun line => 0 < line.length),
        some (s0.position, bytesToRead) )
    else (s0, [], some (s0.position, bytesToRead))
  else (s0, [], none)

/-- The environment's behaviour during one watch cycle: whether the abort
signal is already set when the cycle starts, the outcome of the cycle's
stat+read (the observed file content, or a thrown error), whether the signal
is set by the time a thrown error reaches the catch block, whether the signal
fires during the poll wait (rejecting the wait), and the outcome of the
close-and-reopen attempt performed on a non-cancellation error. -/
structure CycleEnv where
  abortedAtStart : Bool
  statRead : Except FsError (List Nat)
  abortedAtCatch : Bool
  abortsWait : Bool
  reopen : Except FsError Unit

/-- How the watch loop stands after consuming a finite trace of cycles. -/
inductive WatchExit where
  | stopped (remainder : List Nat)
  | failed (e : FsError)
  | watching (s : StreamState)

/-- The `while (!signal?.aborted)` watch loop of `readeofStream`, driven by a
finite trace of cycle environments, collecting the lines it yields.  A cycle
whose stat/read throws is handled in the catch block: exit if the signal is
aborted, otherwise close and reopen the file, reset position to `0`, clear the
remainder and continue; if the reopen itself throws, the original error
propagates and the loop terminates. -/
def watchLoop (bufferSize : Nat) :
    List CycleEnv → StreamState → List (List Nat) × WatchExit
  | [], s => ([], .watching s)
  | env :: rest, s =>
    if env.abortedAtStart then ([], .stopped s.remainder)
    else
      match env.statRead with
      | .ok C =>
        let r := pollStep C bufferSize s
        if env.abortsWait then (r.2.1, .stopped r.1.remainder)
        else
          let t := watchLoop bufferSize rest r.1
          (r.2.1 ++ t.1, t.2)
      | .error e =>
        if env.abortedAtCatch then ([], .stopped s.remainder)
        else
          match env.reopen with
          | .ok _ => watchLoop bufferSize rest ⟨0, []⟩
          | .error _ => ([], .failed e)

/-- Everything the generator yields after the initial read, for a given trace,
starting from stream state `s`: the watch-loop emissions plus — when the loop
exited by cancellation — the final flush of a non-empty remainder, emitted
once.  The second component is the error the generator rethrows, if any. -/
def streamTail (bufferSize : Nat) (trace : List CycleEnv) (s : StreamState) :
    List (List Nat) × Option FsError :=
  match watchLoop bufferSize trace s with
  | (out, .stopped r) => (out ++ if 0 < r.length then [r] else [], none)
  | (out, .failed e) => (out, some e)
  | (out, .watching _) => (out, none)

/-- A full streaming run over a file whose content at open is `C₀`: the
initial-read emissions, then — with the position set to the file's size at
open and an empty remainder — the watch loop over the trace. -/
def streamRun (C₀ : List Nat) (maxLines : Int) (bufferSize : Nat)
    (trace : List CycleEnv) : List (List Nat) × Option FsError :=
  let t := streamTail bufferSize trace ⟨C₀.length, []⟩
  (initialEmits C₀ maxLines bufferSize ++ t.1, t.2)

/-! ### Properties of the backward scan -/

/-- Scanning `[pos, pos + (n₁ + n₂))` backward first scans the high part
`[pos + n₁, pos + n₁ + n₂)` and, if the break did not fire there, continues
with the low part `[pos, pos + n₁)`. -/
theorem scanRange_add (C : List Nat) (fs k pos n₁ : Nat) :
    ∀ n₂ lf, scanRange C fs k pos (n₁ + n₂) lf =
      match scanRange C fs k (pos + n₁) n₂ lf with
      | (lf', some s) => (lf', some s)
      | (lf', none) => scanRange C fs k pos n₁ lf'
  | 0, lf => by simp [scanRange]
  | n₂ + 1, lf => by
    have habs : pos + (n₁ + n₂) = pos + n₁ + n₂ := by omega
    show scanRange C fs k pos (n₁ + n₂ + 1) lf = _
    rw [scanRange, scanRange, habs]
    by_cases hb : C.getD (pos + n₁ + n₂) 0 = NL
    · rw [if_pos hb, if_pos hb]
      by_cases hstop : k ≤ if pos + n₁ + n₂ ≠ fs - 1 ∨ 0 < lf then lf + 1 else lf
      · simp only [if_pos hstop]
      · simp only [if_neg hstop]
        exact scanRange_add C fs k pos n₁ n₂ _
    · rw [if_neg hb, if_neg hb]
      exact scanRange_add C fs k pos n₁ n₂ lf

/-- If the inner scan finishes a range without breaking, `linesFound` stays
below the target (the break fires as soon as the target is reached). -/
theorem scanRange_none_lt (C : List Nat) (fs k pos : Nat) :
    ∀ n lf lf', lf < k → scanRange C fs k pos n lf = (lf', none) → lf' < k
  | 0, lf, lf', hlt, h => by
    simp only [scanRange, Prod.mk.injEq] at h
    omega
  | n + 1, lf, lf', hlt, h => by
    rw [scanRange] at h
    by_cases hb : C.getD (pos + n) 0 = NL
    · rw [if_pos hb] at h
      by_cases hstop : k ≤ if pos + n ≠ fs - 1 ∨ 0 < lf then lf + 1 else lf
      · simp only [if_pos hstop, Prod.mk.injEq] at h
        exact absurd h.2 (by simp)
      · simp only [if_neg hstop] at h
        exact scanRange_none_lt C fs k pos n _ lf' (by omega) h
    · rw [if_neg hb] at h
      exact scanRange_none_lt C fs k pos n lf lf' hlt h

/-- If the inner scan breaks with `some s`, the target was reached and the
recorded start offset lies inside the scanned range. -/
theorem scanRange_some (C : List Nat) (fs k pos : Nat) :
    ∀ n lf lf' s, scanRange C fs k pos n lf = (lf', some s) →
      k ≤ lf' ∧ s ≤ pos + n
  | 0, lf, lf', s, h => by simp [scanRange] at h
  | n + 1, lf, lf', s, h => by
    rw [scanRange] at h
    by_cases hb : C.getD (pos + n) 0 = NL
    · rw [if_pos hb] at h
      by_cases hstop : k ≤ if pos + n ≠ fs - 1 ∨ 0 < lf then lf + 1 else lf
      · simp only [if_pos hstop, Prod.mk.injEq, Option.some.injEq] at h
        omega
      · simp only [if_neg hstop] at h
        have := scanRange_some C fs k pos n _ lf' s h
        omega
    · rw [if_neg hb] at h
      have := scanRange_some C fs k pos n lf lf' s h
      omega

/-- With at least one byte of buffer and enough fuel, the chunked scan loop
computes exactly what a single backward scan of the whole unscanned range
`[0, position)` computes: the chunking is invisible, and a break inside a
chunk ends the loop with the recorded offset. -/
theorem scanLoop_eq_scanRange (C : List Nat) (fs k bufferSize : Nat)
    (hbs : 1 ≤ bufferSize) :
    ∀ fuel position lf srp, position + 1 ≤ fuel → lf < k →
      scanLoop C fs k bufferSize fuel position lf srp =
        match scanRange C fs k 0 position lf with
        | (lf', some s) => (lf', s)
        | (lf', none) => (lf', srp)
  | 0, position, lf, srp, hfuel, _ => absurd hfuel (by omega)
  | fuel + 1, position, lf, srp, hfuel, hlf => by
    rw [scanLoop]
    by_cases hp : position = 0
    · subst hp
      rw [if_pos (Or.inl rfl)]
      simp [scanRange]
    · rw [if_neg (by omega : ¬(position = 0 ∨ k ≤ lf))]
      dsimp only
      have hrl1 : 1 ≤ min bufferSize position := by omega
      have hsplit : position - min bufferSize position + min bufferSize position
          = position := by omega
      have hdec := scanRange_add C fs k 0 (position - min bufferSize position)
        (min bufferSize position) lf
      rw [hsplit, Nat.zero_add] at hdec
      rcases h : scanRange C fs k (position - min bufferSize position)
          (min bufferSize position) lf with ⟨lf', s?⟩
      rw [h] at hdec
      cases s? with
      | some s =>
        have hk := (scanRange_some C fs k _ _ lf lf' s h).1
        obtain ⟨f', rfl⟩ : ∃ f', fuel = f' + 1 := ⟨fuel - 1, by omega⟩
        rw [hdec]
        dsimp only
        rw [scanLoop, if_pos (Or.inr hk)]
      | none =>
        have hlf' := scanRange_none_lt C fs k _ _ lf lf' hlf h
        rw [hdec]
        dsimp only
        exact scanLoop_eq_scanRange C fs k bufferSize hbs fuel
          (position - min bufferSize position) lf' srp (by omega) hlf'

/-- On a scan of `[0, n)` with every index below `fs - 1`, the trailing-newline
exception never fires: the scan breaks at the `(k - lf)`-th line feed from the
end if there is one, and otherwise counts all line feeds in the range. -/
theorem scanRange_eq_nthNL (C : List Nat) (fs k : Nat) :
    ∀ n lf, n + 1 ≤ fs → lf < k →
      scanRange C fs k 0 n lf =
        match nthNL C n (k - lf - 1) with
        | some p => (k, some (p + 1))
        | none => (lf + nlBelow C n, none)
  | 0, lf, _, _ => by simp [scanRange, nthNL, nlBelow]
  | n + 1, lf, hn, hlf => by
    have hcond : (n ≠ fs - 1 ∨ 0 < lf) := Or.inl (by omega)
    rw [scanRange, nthNL]
    simp only [Nat.zero_add, if_pos hcond]
    by_cases hb : C.getD n 0 = NL
    · rw [if_pos hb, if_pos hb]
      by_cases hstop : k ≤ lf + 1
      · have hk : lf + 1 = k := by omega
        rw [if_pos hstop, if_pos (by omega : k - lf - 1 = 0), hk]
      · rw [if_neg hstop, if_neg (by omega : ¬k - lf - 1 = 0),
          scanRange_eq_nthNL C fs k n (lf + 1) (by omega) (by omega),
          (by omega : k - (lf + 1) - 1 = k - lf - 1 - 1)]
        rcases hnth : nthNL C n (k - lf - 1 - 1) with _ | p
        · simp only [nlBelow, if_pos hb]
          congr 1
          omega
        · rfl
    · rw [if_neg hb, if_neg hb,
        scanRange_eq_nthNL C fs k n lf (by omega) hlf]
      rcases hnth : nthNL C n (k - lf - 1) with _ | p
      · simp only [nlBelow, if_neg hb]
        congr 1
      · rfl

/-! ### Counting line feeds -/

theorem nthNL_none_iff (C : List Nat) :
    ∀ n j, nthNL C n j = none ↔ nlBelow C n ≤ j
  | 0, j => by simp [nthNL, nlBelow]
  | n + 1, j => by
    rw [nthNL, nlBelow]
    by_cases hb : C.getD n 0 = NL
    · rw [if_pos hb, if_pos hb]
      by_cases hj : j = 0
      · subst hj
        simp
      · rw [if_neg hj, nthNL_none_iff C n (j - 1)]
        omega
    · rw [if_neg hb, if_neg hb, nthNL_none_iff C n j]
      omega

theorem nthNL_some_lt (C : List Nat) :
    ∀ n j p, nthNL C n j = some p → p < n
  | 0, j, p, h => by simp [nthNL] at h
  | n + 1, j, p, h => by
    rw [nthNL] at h
    by_cases hb : C.getD n 0 = NL
    · rw [if_pos hb] at h
      by_cases hj : j = 0
      · rw [if_pos hj] at h
        injection h with h
        omega
      · rw [if_neg hj] at h
        have := nthNL_some_lt C n (j - 1) p h
        omega
    · rw [if_neg hb] at h
      have := nthNL_some_lt C n j p h
      omega

/-- Only the bytes at indices below `n` matter to `nthNL`. -/
theorem nthNL_congr (C D : List Nat) :
    ∀ n, (∀ i, i < n → C.getD i 0 = D.getD i 0) →
      ∀ j, nthNL C n j = nthNL D n j
  | 0, _, j => rfl
  | n + 1, hag, j => by
    rw [nthNL, nthNL, hag n (by omega)]
    by_cases hb : D.getD n 0 = NL
    · rw [if_pos hb, if_pos hb]
      by_cases hj : j = 0
      · rw [if_pos hj, if_pos hj]
      · rw [if_neg hj, if_neg hj,
          nthNL_congr C D n (fun i hi => hag i (by omega)) (j - 1)]
    · rw [if_neg hb, if_neg hb,
        nthNL_congr C D n (fun i hi => hag i (by omega)) j]

/-- Only the bytes at indices below `n` matter to `nlBelow`. -/
theorem nlBelow_congr (C D : List Nat) :
    ∀ n, (∀ i, i < n → C.getD i 0 = D.getD i 0) →
      nlBelow C n = nlBelow D n
  | 0, _ => rfl
  | n + 1, hag => by
    rw [nlBelow, nlBelow, hag n (by omega),
      nlBelow_congr C D n (fun i hi => hag i (by omega))]

theorem nlBelow_cons (b : Nat) (R : List Nat) :
    ∀ n, nlBelow (b :: R) (n + 1) = (if b = NL then 1 else 0) + nlBelow R n
  | 0 => by simp [nlBelow]
  | n + 1 => by
    rw [nlBelow, nlBelow_cons b R n, List.getD_cons_succ]
    show _ = (if b = NL then 1 else 0) + nlBelow R (n + 1)
    rw [nlBelow]
    omega

/-- Peeling the head byte off a backward search: the search first looks in the
tail (at shifted positions) and falls back to the head byte once every line
feed of the tail has been passed. -/
theorem nthNL_cons (b : Nat) (R : List Nat) :
    ∀ n j, nthNL (b :: R) (n + 1) j =
      match nthNL R n j with
      | some p => some (p + 1)
      | none => if b = NL ∧ j = nlBelow R n then some 0 else none
  | 0, j => by
    rw [nthNL, nthNL]
    simp only [List.getD_cons_zero, nthNL, nlBelow]
    by_cases hb : b = NL
    · rw [if_pos hb]
      by_cases hj : j = 0
      · rw [if_pos hj, if_pos ⟨hb, hj⟩]
      · rw [if_neg hj, if_neg (fun h => hj h.2)]
    · rw [if_neg hb, if_neg (fun h => hb h.1)]
  | n + 1, j => by
    rw [nthNL, List.getD_cons_succ]
    by_cases hb : R.getD n 0 = NL
    · rw [if_pos hb]
      by_cases hj : j = 0
      · rw [if_pos hj]
        conv_rhs => rw [nthNL, if_pos hb, if_pos hj]
      · rw [if_neg hj, nthNL_cons b R n (j - 1)]
        conv_rhs => rw [nthNL, if_pos hb, if_neg hj]
        rcases hnth : nthNL R n (j - 1) with _ | p
        · rw [nlBelow, if_pos hb]
          by_cases hc : b = NL ∧ j - 1 = nlBelow R n
          · rw [if_pos hc, if_pos ⟨hc.1, by omega⟩]
          · rw [if_neg hc, if_neg (fun h => hc ⟨h.1, by omega⟩)]
        · rfl
    · rw [if_neg hb, nthNL_cons b R n j]
      conv_rhs => rw [nthNL, if_neg hb]
      rcases hnth : nthNL R n j with _ | p
      · rw [nlBelow, if_neg hb, Nat.add_zero]
      · rfl

/-! ### Splitting and joining on line feeds -/

theorem splitNL_ne_nil : ∀ B : List Nat, splitNL B ≠ []
  | [] => by simp [splitNL]
  | b :: R => by
    rw [splitNL]
    by_cases hb : b = NL
    · rw [if_pos hb]
      simp
    · rw [if_neg hb]
      rcases h : splitNL R with _ | ⟨s, ss⟩ <;> simp

theorem joinNL_splitNL : ∀ B : List Nat, joinNL (splitNL B) = B
  | [] => rfl
  | b :: R => by
    have hR := joinNL_splitNL R
    rw [splitNL]
    by_cases hb : b = NL
    · rw [if_pos hb]
      rcases h : splitNL R with _ | ⟨s, ss⟩
      · exact absurd h (splitNL_ne_nil R)
      · rw [h] at hR
        show ([] : List Nat) ++ NL :: joinNL (s :: ss) = b :: R
        rw [List.nil_append, hR, hb]
    · rw [if_neg hb]
      rcases h : splitNL R with _ | ⟨s, ss⟩
      · exact absurd h (splitNL_ne_nil R)
      · rw [h] at hR
        rcases ss with _ | ⟨s', ss'⟩
        · have hR' : s = R := hR
          show b :: s = b :: R
          rw [hR']
        · have hR' : s ++ NL :: joinNL (s' :: ss') = R := hR
          show (b :: s) ++ NL :: joinNL (s' :: ss') = b :: R
          rw [List.cons_append, hR']

theorem splitNL_length :
    ∀ B : List Nat, (splitNL B).length = nlBelow B B.length + 1
  | [] => rfl
  | b :: R => by
    rw [splitNL]
    have hlen : (b :: R).length = R.length + 1 := rfl
    rw [hlen, nlBelow_cons]
    have hR := splitNL_length R
    by_cases hb : b = NL
    · rw [if_pos hb, if_pos hb, List.length_cons, hR]
      omega
    · rw [if_neg hb, if_neg hb]
      rcases h : splitNL R with _ | ⟨s, ss⟩
      · exact absurd h (splitNL_ne_nil R)
      · rw [h] at hR
        rw [List.length_cons] at hR ⊢
        omega

/-- Core correctness of the backward search: dropping every byte before the
`k`-th line feed from the end (or nothing, when there are fewer than `k` line
feeds) leaves exactly the last `k` newline-delimited segments, re-joined. -/
theorem drop_nthNL_eq_segments :
    ∀ (B : List Nat) (k : Nat), 1 ≤ k →
      B.drop (match nthNL B B.length (k - 1) with
              | some p => p + 1
              | none => 0) =
        joinNL ((splitNL B).drop ((splitNL B).length - k))
  | [], k, hk => by
    simp only [splitNL, nthNL, List.length_nil, List.length_cons,
      Nat.sub_eq_zero_of_le hk, List.drop_nil, List.drop_zero]
    rfl
  | b :: R, k, hk => by
    have hIH := drop_nthNL_eq_segments R k hk
    have hlenR := splitNL_length R
    rw [List.length_cons, nthNL_cons]
    rcases h : nthNL R R.length (k - 1) with _ | p
    · have hcnt : nlBelow R R.length ≤ k - 1 := (nthNL_none_iff R R.length (k - 1)).1 h
      by_cases hc : b = NL ∧ k - 1 = nlBelow R R.length
      · rw [if_pos hc]
        obtain ⟨hb, hkc⟩ := hc
        rw [splitNL, if_pos hb, List.length_cons,
          (by omega : (splitNL R).length + 1 - k = 1)]
        show R = joinNL ((splitNL R).drop 0)
        rw [List.drop_zero, joinNL_splitNL]
      · rw [if_neg hc]
        show b :: R = joinNL ((splitNL (b :: R)).drop ((splitNL (b :: R)).length - k))
        have hlen : (splitNL (b :: R)).length ≤ k := by
          rw [splitNL_length, List.length_cons, nlBelow_cons]
          by_cases hb : b = NL
          · rw [if_pos hb]
            have : ¬k - 1 = nlBelow R R.length := fun hh => hc ⟨hb, hh⟩
            omega
          · rw [if_neg hb]
            omega
        rw [Nat.sub_eq_zero_of_le hlen, List.drop_zero, joinNL_splitNL]
    · have hlt : k - 1 < nlBelow R R.length := by
        rcases Nat.lt_or_ge (k - 1) (nlBelow R R.length) with hlt | hge
        · exact hlt
        · rw [(nthNL_none_iff R R.length (k - 1)).2 hge] at h
          exact absurd h (by simp)
      rw [h] at hIH
      dsimp only at hIH
      show (b :: R).drop (p + 1 + 1) = _
      rw [List.drop_succ_cons]
      rw [hIH]
      by_cases hb : b = NL
      · rw [splitNL, if_pos hb, List.length_cons,
          (by omega : (splitNL R).length + 1 - k = ((splitNL R).length - k) + 1),
          List.drop_succ_cons]
      · rw [splitNL, if_neg hb]
        rcases hs : splitNL R with _ | ⟨s, ss⟩
        · exact absurd hs (splitNL_ne_nil R)
        · have hlen2 : (splitNL R).length = ss.length + 1 := by
            rw [hs, List.length_cons]
          show joinNL (List.drop ((s :: ss).length - k) (s :: ss)) =
            joinNL (List.drop (((b :: s) :: ss).length - k) ((b :: s) :: ss))
          rw [List.length_cons, List.length_cons,
            (by omega : ss.length + 1 - k = (ss.length - k) + 1),
            List.drop_succ_cons, List.drop_succ_cons]

/-! ### From the scan to the split: assembling the one-shot result -/

theorem getD_dropLast (l : List Nat) (i : Nat) (h : i < l.length - 1) :
    l.dropLast.getD i 0 = l.getD i 0 := by
  rw [List.getD_eq_getElem?_getD, List.getD_eq_getElem?_getD,
    List.dropLast_eq_take, List.getElem?_take, if_pos h]

/-- Scanning all of the body (the file without its trailing newline, if any)
finds the same line feeds as scanning the whole file below its last byte. -/
theorem nthNL_body (C : List Nat) (hC : C ≠ []) (j : Nat) :
    nthNL (bodyOf C) (bodyOf C).length j = nthNL C (C.length - 1) j := by
  rw [bodyOf]
  by_cases hNL : C.getLast? = some NL
  · rw [if_pos hNL, List.length_dropLast]
    exact nthNL_congr _ C (C.length - 1) (fun i hi => getD_dropLast C i hi) j
  · rw [if_neg hNL]
    obtain ⟨m, hm⟩ : ∃ m, C.length = m + 1 :=
      ⟨C.length - 1, by have := List.length_pos.2 hC; omega⟩
    have hg : C.getD m 0 = C.getLast hC := by
      rw [List.getD_eq_getElem?_getD]
      have h1 : C.getLast? = C[m]? := by
        rw [List.getLast?_eq_getElem?, hm, Nat.add_sub_cancel]
      rw [← h1, List.getLast?_eq_getLast C hC]
      rfl
    have hne : ¬C.getD m 0 = NL := by
      rw [hg]
      intro hEq
      exact hNL (by rw [List.getLast?_eq_getLast C hC, hEq])
    rw [hm, Nat.add_sub_cancel, nthNL, if_neg hne]

/-- The body's line-feed count equals the whole file's count below its last
byte. -/
theorem nlBelow_body (C : List Nat) (hC : C ≠ []) :
    nlBelow (bodyOf C) (bodyOf C).length = nlBelow C (C.length - 1) := by
  rw [bodyOf]
  by_cases hNL : C.getLast? = some NL
  · rw [if_pos hNL, List.length_dropLast]
    exact nlBelow_congr _ C (C.length - 1) (fun i hi => getD_dropLast C i hi)
  · rw [if_neg hNL]
    obtain ⟨m, hm⟩ : ∃ m, C.length = m + 1 :=
      ⟨C.length - 1, by have := List.length_pos.2 hC; omega⟩
    have hg : C.getD m 0 = C.getLast hC := by
      rw [List.getD_eq_getElem?_getD]
      have h1 : C.getLast? = C[m]? := by
        rw [List.getLast?_eq_getElem?, hm, Nat.add_sub_cancel]
      rw [← h1, List.getLast?_eq_getLast C hC]
      rfl
    have hne : ¬C.getD m 0 = NL := by
      rw [hg]
      intro hEq
      exact hNL (by rw [List.getLast?_eq_getLast C hC, hEq])
    rw [hm, Nat.add_sub_cancel, nlBelow, if_neg hne, Nat.add_zero]

/-- What the one-shot scan computes, characterised: the byte after the `k`-th
counted line feed from the end (the line feed at the very last byte is never
counted), or `0` when fewer than `k` line feeds exist. -/
theorem startOffset_eq (C : List Nat) (k bufferSize : Nat) (hk : 1 ≤ k)
    (hbs : 1 ≤ bufferSize) (hC : C ≠ []) :
    startOffset C k bufferSize =
      match nthNL C (C.length - 1) (k - 1) with
      | some p => p + 1
      | none => 0 := by
  have hfs : 1 ≤ C.length := List.length_pos.2 hC
  rw [startOffset]
  rw [scanLoop_eq_scanRange C C.length k bufferSize hbs (C.length + 2)
    C.length 0 C.length (by omega) (by omega)]
  have hstep : scanRange C C.length k 0 C.length 0
      = scanRange C C.length k 0 (C.length - 1) 0 := by
    obtain ⟨m, hm⟩ : ∃ m, C.length = m + 1 := ⟨C.length - 1, by omega⟩
    rw [hm, Nat.add_sub_cancel, scanRange]
    simp only [Nat.zero_add]
    by_cases hb : C.getD m 0 = NL
    · rw [if_pos hb, if_neg (by omega : ¬(m ≠ m + 1 - 1 ∨ 0 < 0)),
        if_neg (by omega : ¬k ≤ 0)]
    · rw [if_neg hb]
  rw [hstep, scanRange_eq_nthNL C C.length k (C.length - 1) 0 (by omega)
    (by omega)]
  simp only [Nat.sub_zero, Nat.zero_add]
  rcases h : nthNL C (C.length - 1) (k - 1) with _ | p
  · have hcnt := (nthNL_none_iff C (C.length - 1) (k - 1)).1 h
    dsimp only
    rw [if_pos (by omega : nlBelow C (C.length - 1) < k)]
  · dsimp only
    rw [if_neg (by omega : ¬k < k)]

/-- The recorded start offset never exceeds the file size, at every step of
the loop: `startReadPos` starts at `stat.size` and is only ever overwritten
with a break offset inside the scanned range. -/
theorem scanLoop_srp_le (C : List Nat) (fs k bufferSize : Nat) :
    ∀ fuel p lf srp, p ≤ fs → srp ≤ fs →
      (scanLoop C fs k bufferSize fuel p lf srp).2 ≤ fs
  | 0, _, _, _, _, hsrp => hsrp
  | fuel + 1, p, lf, srp, hp, hsrp => by
    rw [scanLoop]
    by_cases hc : p = 0 ∨ k ≤ lf
    · rw [if_pos hc]
      exact hsrp
    · rw [if_neg hc]
      dsimp only
      rcases h : scanRange C fs k (p - min bufferSize p) (min bufferSize p) lf
        with ⟨lf', s?⟩
      cases s? with
      | some s =>
        have hs := (scanRange_some C fs k _ _ lf lf' s h).2
        exact scanLoop_srp_le C fs k bufferSize fuel _ lf' s (by omega) (by omega)
      | none =>
        exact scanLoop_srp_le C fs k bufferSize fuel _ lf' srp (by omega) hsrp

theorem startOffset_le (C : List Nat) (k bufferSize : Nat) :
    startOffset C k bufferSize ≤ C.length := by
  rw [startOffset]
  by_cases hc :
      (scanLoop C C.length k bufferSize (C.length + 2) C.length 0 C.length).1 < k
  · rw [if_pos hc]
    omega
  · rw [if_neg hc]
    exact scanLoop_srp_le C C.length k bufferSize _ _ _ _ le_rfl le_rfl

/-- The final read returns the suffix of the file from the start offset. -/
theorem onceText_eq_drop (C : List Nat) (k bufferSize : Nat) :
    onceText C k bufferSize = C.drop (startOffset C k bufferSize) := by
  rw [onceText]
  exact List.take_of_length_le (List.length_drop _ _).le

/-- The one-shot read returns exactly the last `k` newline-delimited segments,
with the trailing newline preserved. -/
theorem onceText_eq_lastSegments (C : List Nat) (k bufferSize : Nat)
    (hk : 1 ≤ k) (hbs : 1 ≤ bufferSize) :
    onceText C k bufferSize = lastSegments C k := by
  by_cases hC : C = []
  · subst hC
    rw [onceText_eq_drop, List.drop_nil, lastSegments]
    simp [bodyOf, splitNL, joinNL, Nat.sub_eq_zero_of_le hk]
  · rw [onceText_eq_drop, startOffset_eq C k bufferSize hk hbs hC,
      ← nthNL_body C hC (k - 1)]
    set B := bodyOf C with hB
    have hmain := drop_nthNL_eq_segments B k hk
    by_cases hNL : C.getLast? = some NL
    · have hsplitC : B ++ [NL] = C := by
        rw [hB, bodyOf, if_pos hNL]
        have hd := List.dropLast_concat_getLast hC
        have h2 := List.getLast?_eq_getLast C hC
        rw [hNL] at h2
        injection h2 with h2
        rw [← h2] at hd
        exact hd
      have hle : (match nthNL B B.length (k - 1) with
          | some p => p + 1
          | none => 0) ≤ B.length := by
        rcases h : nthNL B B.length (k - 1) with _ | p
        · exact Nat.zero_le _
        · have := nthNL_some_lt B B.length (k - 1) p h
          show p + 1 ≤ B.length
          omega
      rw [lastSegments]
      rw [if_pos hNL]
      conv_lhs => rw [← hsplitC]
      rw [List.drop_append_of_le_length hle, hmain]
    · have hbody : B = C := by rw [hB, bodyOf, if_neg hNL]
      rw [lastSegments]
      rw [if_neg hNL, List.append_nil, ← hB, hbody]
      rw [hbody] at hmain
      exact hmain

theorem lastSegments_nil (k : Nat) (hk : 1 ≤ k) : lastSegments [] k = [] := by
  rw [lastSegments]
  simp [bodyOf, splitNL, joinNL, Nat.sub_eq_zero_of_le hk]

/-- The start offset is `0` whenever the file holds at most `k` lines. -/
theorem startOffset_eq_zero_of_le (C : List Nat) (k bufferSize : Nat)
    (hk : 1 ≤ k) (hbs : 1 ≤ bufferSize) (htot : totalLines C ≤ k) :
    startOffset C k bufferSize = 0 := by
  by_cases hC : C = []
  · subst hC
    have := startOffset_le ([] : List Nat) k bufferSize
    simpa using this
  · rw [startOffset_eq C k bufferSize hk hbs hC, ← nthNL_body C hC (k - 1)]
    have hcnt : nlBelow (bodyOf C) (bodyOf C).length ≤ k - 1 := by
      rw [totalLines, splitNL_length] at htot
      omega
    rw [(nthNL_none_iff (bodyOf C) (bodyOf C).length (k - 1)).2 hcnt]

example : onceText [10, 10, 10] 2 16384 = [10, 10] := by decide
example : lastSegments [10, 10, 10] 2 = [10, 10] := by decide
example : onceText [97, 10, 98, 10, 99] 1 1 = [99] := by decide
example : lastSegments [97, 10, 98, 10, 99] 1 = [99] := by decide
example : onceText [97, 10, 98, 10] 1 2 = [98, 10] := by decide
example : lastSegments [97, 10, 98, 10] 1 = [98, 10] := by decide
example : onceText [97, 10, 98, 10, 99] 7 3 = [97, 10, 98, 10, 99] := by decide
example : lastSegments [97, 10, 98, 10, 99] 7 = [97, 10, 98, 10, 99] := by decide
example : totalLines [97, 10, 98, 10, 99] = 3 := by decide
example : totalLines [10, 10, 10] = 3 := by decide

/-! ### The streaming scan coincides with the one-shot scan -/

theorem scanRangeS_eq (C : List Nat) (fs k pos : Nat) :
    ∀ n lf, scanRangeS C fs k pos n lf = scanRange C fs k pos n lf
  | 0, _ => rfl
  | n + 1, lf => by
    rw [scanRangeS, scanRange]
    by_cases hb : C.getD (pos + n) 0 = NL
    · rw [if_pos hb, if_pos hb]
      by_cases hstop : k ≤ if pos + n ≠ fs - 1 ∨ 0 < lf then lf + 1 else lf
      · rw [if_pos hstop, if_pos hstop]
      · rw [if_neg hstop, if_neg hstop, scanRangeS_eq C fs k pos n _]
    · rw [if_neg hb, if_neg hb, scanRangeS_eq C fs k pos n lf]

theorem scanLoopS_eq (C : List Nat) (fs k bufferSize : Nat) :
    ∀ fuel p lf srp, scanLoopS C fs k bufferSize fuel p lf srp
      = scanLoop C fs k bufferSize fuel p lf srp
  | 0, _, _, _ => rfl
  | fuel + 1, p, lf, srp => by
    rw [scanLoopS, scanLoop]
    by_cases hc : p = 0 ∨ k ≤ lf
    · rw [if_pos hc, if_pos hc]
    · rw [if_neg hc, if_neg hc]
      dsimp only
      rw [scanRangeS_eq]
      rcases h : scanRange C fs k (p - min bufferSize p) (min bufferSize p) lf
        with ⟨lf', s?⟩
      cases s? with
      | some s => exact scanLoopS_eq C fs k bufferSize fuel _ lf' s
      | none => exact scanLoopS_eq C fs k bufferSize fuel _ lf' srp

theorem startOffsetS_eq_startOffset (C : List Nat) (k bufferSize : Nat) :
    startOffsetS C k bufferSize = startOffset C k bufferSize := by
  rw [startOffsetS, startOffset, scanLoopS_eq]

/-! ### Claims -/

/-- C1: for every file content and every `maxLines = k ≥ 1`, the one-shot read
`readeof(path, k)` returns exactly the textual last `k` newline-delimited
segments of the file's content, preserving a trailing newline exactly when the
returned byte range ends in one; in particular, when `k` is at least the total
line count, the start offset is `0` and the entire content is returned
unchanged. -/
theorem C1_once_returns_last_segments (C : List Nat) (k : Int)
    (bufferSize : Nat) (hk : 1 ≤ k) (hbs : 1 ≤ bufferSize) :
    readeofOnce (.ok C) k bufferSize = .ok (lastSegments C k.toNat) ∧
    (totalLines C ≤ k.toNat →
      startOffset C k.toNat bufferSize = 0 ∧
      readeofOnce (.ok C) k bufferSize = .ok C) := by
  have hk' : 1 ≤ k.toNat := by omega
  have hmain : readeofOnce (.ok C) k bufferSize
      = .ok (lastSegments C k.toNat) := by
    rw [readeofOnce, if_neg (by omega : ¬k ≤ 0)]
    by_cases hC0 : C.length = 0
    · have hC : C = [] := List.length_eq_zero.1 hC0
      subst hC
      rw [lastSegments_nil k.toNat hk']
      rfl
    · rw [if_neg hC0, onceText_eq_lastSegments C k.toNat bufferSize hk' hbs]
  refine ⟨hmain, fun htot => ?_⟩
  have hzero := startOffset_eq_zero_of_le C k.toNat bufferSize hk' hbs htot
  refine ⟨hzero, ?_⟩
  rw [readeofOnce, if_neg (by omega : ¬k ≤ 0)]
  by_cases hC0 : C.length = 0
  · have hC : C = [] := List.length_eq_zero.1 hC0
    subst hC
    rfl
  · rw [if_neg hC0, onceText_eq_drop, hzero, List.drop_zero]

theorem C1_witness :
    readeofOnce (.ok [97, 10, 98]) 2 4 = .ok (lastSegments [97, 10, 98] 2) ∧
    (totalLines [97, 10, 98] ≤ 2 →
      startOffset [97, 10, 98] 2 4 = 0 ∧
      readeofOnce (.ok [97, 10, 98]) 2 4 = .ok [97, 10, 98]) :=
  C1_once_returns_last_segments [97, 10, 98] 2 4 (by decide) (by decide)

/-- C2: during the backward scan, a line-feed byte at absolute offset
`abs = position + i` increments `linesFound` unless `abs = fileSize - 1` and
`linesFound` is still `0` (a trailing newline at the very end of the file is
never counted as the first boundary); as soon as `linesFound` reaches
`maxLines`, the start offset is recorded as `abs + 1` and scanning stops
immediately — a chunk that breaks ends the loop with that offset and no
further chunk is scanned.  Content `"\n\n\n"` with `k = 2` yields `"\n\n"`. -/
theorem C2_scan_counting (C : List Nat) (fs k : Nat) :
    (∀ pos n lf, C.getD (pos + n) 0 = NL → (pos + n ≠ fs - 1 ∨ 0 < lf) →
      lf + 1 < k →
      scanRange C fs k pos (n + 1) lf = scanRange C fs k pos n (lf + 1)) ∧
    (∀ pos n, pos + n = fs - 1 → C.getD (pos + n) 0 = NL → 1 ≤ k →
      scanRange C fs k pos (n + 1) 0 = scanRange C fs k pos n 0) ∧
    (∀ pos n lf, C.getD (pos + n) 0 = NL → (pos + n ≠ fs - 1 ∨ 0 < lf) →
      k ≤ lf + 1 →
      scanRange C fs k pos (n + 1) lf = (lf + 1, some (pos + n + 1))) ∧
    (∀ bufferSize fuel p lf lf' s srp, p ≠ 0 → lf < k →
      scanRange C fs k (p - min bufferSize p) (min bufferSize p) lf
        = (lf', some s) →
      scanLoop C fs k bufferSize (fuel + 2) p lf srp = (lf', s)) ∧
    readeofOnce (.ok [NL, NL, NL]) 2 16384 = .ok [NL, NL] := by
  refine ⟨?_, ?_, ?_, ?_, rfl⟩
  · intro pos n lf hb hcond hlt
    rw [scanRange, if_pos hb, if_pos hcond, if_neg (by omega : ¬k ≤ lf + 1)]
  · intro pos n heq hb hk
    rw [scanRange, if_pos hb,
      if_neg (by omega : ¬(pos + n ≠ fs - 1 ∨ (0 : Nat) < 0)),
      if_neg (by omega : ¬k ≤ 0)]
  · intro pos n lf hb hcond hstop
    rw [scanRange, if_pos hb, if_pos hcond, if_pos hstop]
  · intro bufferSize fuel p lf lf' s srp hp hlf h
    have hk' := (scanRange_some C fs k _ _ lf lf' s h).1
    rw [scanLoop, if_neg (by omega : ¬(p = 0 ∨ k ≤ lf))]
    dsimp only
    rw [h]
    dsimp only
    rw [scanLoop, if_pos (Or.inr hk')]

theorem C2_witness : scanRange [10, 10] 2 1 0 1 0 = (1, some 1) :=
  (C2_scan_counting [10, 10] 2 1).2.2.1 0 0 0 (by decide)
    (Or.inl (by decide)) (by decide)

/-- C3: for fixed file content and maxLines, the one-shot result is identical
for every buffer size from one byte upwards — the chunk size never changes the
returned text. -/
theorem C3_bufferSize_invariant (C : List Nat) (k : Int) (bs₁ bs₂ : Nat)
    (h₁ : 1 ≤ bs₁) (h₂ : 1 ≤ bs₂) :
    readeofOnce (.ok C) k bs₁ = readeofOnce (.ok C) k bs₂ := by
  rw [readeofOnce, readeofOnce]
  by_cases hk : k ≤ 0
  · rw [if_pos hk, if_pos hk]
  · rw [if_neg hk, if_neg hk]
    by_cases hC0 : C.length = 0
    · rw [if_pos hC0, if_pos hC0]
    · rw [if_neg hC0, if_neg hC0]
      have hC : C ≠ [] := fun h => hC0 (by rw [h]; rfl)
      have hk' : 1 ≤ k.toNat := by omega
      rw [onceText_eq_drop, onceText_eq_drop,
        startOffset_eq C k.toNat bs₁ hk' h₁ hC,
        startOffset_eq C k.toNat bs₂ hk' h₂ hC]

theorem C3_witness :
    readeofOnce (.ok [97, 10, 98, 10, 99]) 2 1
      = readeofOnce (.ok [97, 10, 98, 10, 99]) 2 1024 :=
  C3_bufferSize_invariant [97, 10, 98, 10, 99] 2 1 1024 (by decide) (by decide)

/-- C9: throughout the backward scan the invariant `startReadPos ≤ fileSize`
holds — at every loop step, for every file content, maxLines and bufferSize —
so the final read's length `fileSize - startReadPos` is never negative. -/
theorem C9_start_within_file (C : List Nat) (k bufferSize : Nat) :
    (∀ fuel p lf srp, p ≤ C.length → srp ≤ C.length →
      (scanLoop C C.length k bufferSize fuel p lf srp).2 ≤ C.length) ∧
    startOffset C k bufferSize ≤ C.length ∧
    startOffset C k bufferSize + (C.length - startOffset C k bufferSize)
      = C.length :=
  ⟨fun fuel p lf srp hp hsrp =>
      scanLoop_srp_le C C.length k bufferSize fuel p lf srp hp hsrp,
    startOffset_le C k bufferSize,
    by have := startOffset_le C k bufferSize; omega⟩

theorem C9_witness :
    (scanLoop [10] 1 1 2 3 1 0 1).2 ≤ 1 ∧ startOffset [10] 1 2 ≤ 1 :=
  ⟨(C9_start_within_file [10] 1 2).1 3 1 0 1 (by decide) (by decide),
    (C9_start_within_file [10] 1 2).2.1⟩

/-- C4 as stated is false at `maxLines = 0` with a failing open: the source
checks `maxLines <= 0` before ever opening the file, so a missing path with
`maxLines = 0` yields empty text, not the classified open error the claim
requires "regardless of maxLines". -/
theorem C4_counterexample :
    readeofOnce (.error .notFound) 0 16384 = .ok [] ∧
    readeofOnce (.error .notFound) 0 16384 ≠ .error .notFound :=
  ⟨rfl, fun h => Except.noConfusion h⟩

/-- C4 amended: `maxLines ≤ 0` returns empty text immediately, before the file
is ever opened (even when opening would fail); for `maxLines ≥ 1` the
classified open error propagates unchanged regardless of the buffer size; and
after a successful open an empty file yields empty text.  Neither
`maxLines ≤ 0` nor an empty file is an error. -/
theorem C4_open_error_and_empty (e : FsError) (C : List Nat) (k : Int)
    (bufferSize : Nat) :
    (k ≤ 0 → readeofOnce (.error e) k bufferSize = .ok [] ∧
      readeofOnce (.ok C) k bufferSize = .ok []) ∧
    (1 ≤ k → readeofOnce (.error e) k bufferSize = .error e) ∧
    (1 ≤ k → readeofOnce (.ok []) k bufferSize = .ok []) := by
  refine ⟨fun hk => ⟨?_, ?_⟩, fun hk => ?_, fun hk => ?_⟩
  · rw [readeofOnce, if_pos hk]
  · rw [readeofOnce, if_pos hk]
  · rw [readeofOnce, if_neg (by omega : ¬k ≤ 0)]
  · rw [readeofOnce, if_neg (by omega : ¬k ≤ 0)]
    rfl

theorem C4_witness :
    readeofOnce (.error .isADirectory) (-1) 8 = .ok [] ∧
    readeofOnce (.error .permissionDenied) 3 8 = .error .permissionDenied :=
  ⟨((C4_open_error_and_empty .isADirectory [97] (-1) 8).1 (by decide)).1,
    (C4_open_error_and_empty .permissionDenied [97] 3 8).2.1 (by decide)⟩

/-- C5: for every file content, `maxLines ≥ 1` and bufferSize, the streaming
mode's initial read computes the same start offset as the one-shot read and
decodes the same byte range, and the lines it emits before entering the watch
loop are exactly the non-empty segments of that text split on line feeds, in
order. -/
theorem C5_initial_read_refines_once (C : List Nat) (k : Int)
    (bufferSize : Nat) (hk : 1 ≤ k) :
    startOffsetS C k.toNat bufferSize = startOffset C k.toNat bufferSize ∧
    initialEmits C k bufferSize
      = (splitNL (onceText C k.toNat bufferSize)).filter
          (fun line => 0 < line.length) := by
  refine ⟨startOffsetS_eq_startOffset C k.toNat bufferSize, ?_⟩
  rw [initialEmits]
  by_cases hC0 : 0 < C.length ∧ 0 < k
  · rw [if_pos hC0]
    rw [startOffsetS_eq_startOffset C k.toNat bufferSize]
    rfl
  · rw [if_neg hC0]
    have hC : C = [] := by
      rcases C with _ | ⟨b, R⟩
      · rfl
      · exact absurd ⟨by simp, by omega⟩ hC0
    subst hC
    simp [onceText, splitNL]

theorem C5_witness :
    startOffsetS [97, 10, 98, 10] 1 4 = startOffset [97, 10, 98, 10] 1 4 ∧
    initialEmits [97, 10, 98, 10] 1 4
      = (splitNL (onceText [97, 10, 98, 10] 1 4)).filter
          (fun line => 0 < line.length) :=
  C5_initial_read_refines_once [97, 10, 98, 10] 1 4 (by decide)

/-- C6: whenever a poll observes a file size strictly smaller than the
remembered position, the truncation check resets the state to position `0`
with an empty remainder; the cycle completes normally and the loop simply
continues with the rest of the trace; and a read request is never issued at a
position beyond the observed file size (the requested range stays inside the
file). -/
theorem C6_truncation_reset (C : List Nat) (bs : Nat) (s : StreamState) :
    (C.length < s.position → truncCheck C.length s = ⟨0, []⟩) ∧
    (∀ p len, (pollStep C bs s).2.2 = some (p, len) →
      p < C.length ∧ p + len ≤ C.length) ∧
    (∀ env rest, env.abortedAtStart = false → env.statRead = .ok C →
      env.abortsWait = false →
      watchLoop bs (env :: rest) s
        = ((pollStep C bs s).2.1
              ++ (watchLoop bs rest (pollStep C bs s).1).1,
            (watchLoop bs rest (pollStep C bs s).1).2)) := by
  refine ⟨fun h => ?_, fun p len h => ?_, fun env rest hstart hstat hwait => ?_⟩
  · rw [truncCheck, if_pos h]
  · rw [pollStep] at h
    dsimp only at h
    split at h
    next h1 =>
      split at h
      next h2 =>
        simp only [Option.some.injEq, Prod.mk.injEq] at h
        omega
      next h2 =>
        simp only [Option.some.injEq, Prod.mk.injEq] at h
        omega
    next h1 =>
      simp at h
  · rw [watchLoop]
    simp only [hstart, Bool.false_eq_true, if_false, hstat, hwait]

theorem C6_witness :
    truncCheck 1 ⟨5, [97]⟩ = ⟨0, []⟩ ∧ 0 < 1 ∧ 0 + 1 ≤ 1 :=
  ⟨(C6_truncation_reset [107] 4 ⟨5, [97]⟩).1 (by decide),
    (C6_truncation_reset [107] 4 ⟨5, [97]⟩).2.1 0 1 (by decide)⟩

/-- C7: a mid-watch stat/read failure not caused by cancellation is retried
exactly once in that cycle by closing and reopening the file with position
reset to `0` and the remainder cleared, after which the loop continues with
the remaining trace; if the reopen itself fails, the original error (not the
reopen error) propagates and the sequence terminates with no further cycle
processed — there is no infinite retry. -/
theorem C7_error_retry_once (bs : Nat) (s : StreamState) (e e' : FsError)
    (rest : List CycleEnv) (w d : Bool) :
    (watchLoop bs (⟨false, .error e, false, w, .ok ()⟩ :: rest) s
      = watchLoop bs rest ⟨0, []⟩) ∧
    (watchLoop bs (⟨false, .error e, false, d, .error e'⟩ :: rest) s
      = ([], .failed e)) ∧
    (streamTail bs (⟨false, .error e, false, d, .error e'⟩ :: rest) s
      = ([], some e)) :=
  ⟨rfl, rfl, rfl⟩

/-- C8: when the cancellation signal fires during streaming the watch loop
exits — either at the head of a cycle, abandoning the remaining trace, or
during the poll wait right after that cycle's emissions — and the generator
then yields a non-empty remainder exactly once as the final item; an empty
remainder produces no final item. -/
theorem C8_cancellation_flush (bs : Nat) (s : StreamState) (env : CycleEnv)
    (rest : List CycleEnv) (C : List Nat) :
    (env.abortedAtStart = true →
      watchLoop bs (env :: rest) s = ([], .stopped s.remainder)) ∧
    (env.abortedAtStart = false → env.statRead = .ok C → env.abortsWait = true →
      watchLoop bs (env :: rest) s
        = ((pollStep C bs s).2.1, .stopped (pollStep C bs s).1.remainder)) ∧
    (∀ trace s' out r, watchLoop bs trace s' = (out, .stopped r) →
      streamTail bs trace s'
        = (out ++ if 0 < r.length then [r] else [], none)) := by
  refine ⟨fun h => ?_, fun hstart hstat hwait => ?_, fun trace s' out r h => ?_⟩
  · rw [watchLoop]
    simp only [h, if_true]
  · rw [watchLoop]
    simp only [hstart, Bool.false_eq_true, if_false, hstat, hwait, if_true]
  · rw [streamTail, h]

theorem C8_witness :
    watchLoop 4 (⟨true, .ok [], false, false, .ok ()⟩ :: []) ⟨3, [99]⟩
      = ([], .stopped [99]) ∧
    streamTail 4 (⟨true, .ok [], false, false, .ok ()⟩ :: []) ⟨3, [99]⟩
      = ([[99]], none) := by
  have h1 := (C8_cancellation_flush 4 ⟨3, [99]⟩
    ⟨true, .ok [], false, false, .ok ()⟩ [] []).1 rfl
  have h2 := (C8_cancellation_flush 4 ⟨3, [99]⟩
    ⟨true, .ok [], false, false, .ok ()⟩ [] []).2.2
    (⟨true, .ok [], false, false, .ok ()⟩ :: []) ⟨3, [99]⟩ [] [99] h1
  exact ⟨h1, by rw [h2]; simp⟩

/-- C10: in streaming mode with `maxLines ≤ 0` or an empty file, the initial
emission is skipped but the generator does not terminate: it enters the watch
loop with its position at the current file size, and a later poll that
observes appended content emits the appended complete non-empty lines (the
trailing fragment becomes the remainder) until cancelled. -/
theorem C10_stream_degenerate_still_watches (C D : List Nat) (k : Int)
    (bs : Nat) (trace : List CycleEnv) :
    (k ≤ 0 ∨ C = [] →
      initialEmits C k bs = [] ∧
      streamRun C k bs trace = streamTail bs trace ⟨C.length, []⟩) ∧
    (D ≠ [] → D.length ≤ bs →
      pollStep (C ++ D) bs ⟨C.length, []⟩
        = (⟨C.length + D.length, ((splitNL D).getLast?).getD []⟩,
            (splitNL D).dropLast.filter (fun line => 0 < line.length),
            some (C.length, D.length))) := by
  constructor
  · intro h
    have hcond : ¬(0 < C.length ∧ 0 < k) := by
      rcases h with h | h
      · exact fun hc => by omega
      · subst h
        exact fun hc => by simp at hc
    have hinit : initialEmits C k bs = [] := by
      rw [initialEmits, if_neg hcond]
    refine ⟨hinit, ?_⟩
    rw [streamRun, hinit, List.nil_append]
  · intro hD hbs
    have hDlen : 0 < D.length := List.length_pos.2 hD
    have htc : truncCheck (C ++ D).length ⟨C.length, []⟩ = ⟨C.length, []⟩ := by
      rw [truncCheck,
        if_neg (by
          show ¬(C ++ D).length < C.length
          rw [List.length_append]
          omega)]
    rw [pollStep, htc]
    dsimp only
    have hbtr : min bs ((C ++ D).length - C.length) = D.length := by
      rw [List.length_append]
      omega
    rw [hbtr]
    have hchunk : ((C ++ D).drop C.length).take D.length = D := by
      rw [List.drop_left, List.take_length]
    rw [hchunk,
      if_pos (by rw [List.length_append]; omega : C.length < (C ++ D).length),
      if_pos hDlen, List.nil_append]

theorem C10_witness :
    initialEmits [97] 0 4 = [] ∧
    pollStep ([97] ++ [98, 10]) 4 ⟨1, []⟩
      = (⟨1 + 2, ((splitNL [98, 10]).getLast?).getD []⟩,
          (splitNL [98, 10]).dropLast.filter (fun line => 0 < line.length),
          some (1, 2)) :=
  ⟨((C10_stream_degenerate_still_watches [97] [98, 10] 0 4 []).1
      (Or.inl (by decide))).1,
    (C10_stream_degenerate_still_watches [97] [98, 10] 0 4 []).2
      (by decide) (by decide)⟩

end Readeof
